import Mathlib

/-!
Verification of the realtime audio, transcript and TTS core of the
AI-scratchpad repository, as a shallow embedding in Lean 4.

The embedding follows the TypeScript source:
- `chunkText` and its sentence splitter (the regex
  `[^.!?]+[.!?]*\s*|.+` with the `g` flag) from the chat component;
- the transcript commit logic (the `turnComplete` handler and
  `commitFinalUtterances`) and session teardown (`stopSession`) from
  `useLiveAudio.ts`;
- the playback scheduling step (`playAudio` / `queueAndPlayAudio`);
- the sequential TTS run loop (`handleReadAloud` / `stopTtsPlayback`).

JavaScript strings are modelled as `List Char`, clock times and audio
durations as rationals, and the JS truthiness test on a string as a
test for non-emptiness.
-/

/-- Sentence-terminating punctuation, the class `[.!?]` in the source regex. -/
def isTerm (c : Char) : Bool := c == '.' || c == '!' || c == '?'

/-- JS line terminators (LF, CR, LS, PS), the characters NOT matched by
the regex metacharacter `.`. -/
def isLineTerm (c : Char) : Bool :=
  c == '\n' || c == '\r' || c.toNat == 0x2028 || c.toNat == 0x2029

/-- The JS whitespace class `\s` (also the set removed by `String.trim`). -/
def isJsWhite (c : Char) : Bool :=
  c == ' ' || c == '\t' || c == '\n' || c == '\x0B' || c == '\x0C' || c == '\r' ||
  c.toNat == 0xA0 || c.toNat == 0x1680 || (0x2000 ≤ c.toNat && c.toNat ≤ 0x200A) ||
  c.toNat == 0x2028 || c.toNat == 0x2029 || c.toNat == 0x202F || c.toNat == 0x205F ||
  c.toNat == 0x3000 || c.toNat == 0xFEFF

/-- JS `String.prototype.trim`: drop leading and trailing whitespace. -/
def jsTrim (l : List Char) : List Char :=
  ((l.dropWhile isJsWhite).reverse.dropWhile isJsWhite).reverse

/-- One match of `/[^.!?]+[.!?]*\s*|.+/` at the head of `c :: cs`,
returning the matched sentence and the remaining input.  When `c` is not
sentence punctuation the first alternative matches greedily (a run of
non-terminators, then a run of terminators, then a run of whitespace);
otherwise the second alternative `.+` matches up to the next line
terminator.  One of the two alternatives always matches at least `c`,
so the regex scan never skips characters. -/
def sentStep (c : Char) (cs : List Char) : List Char × List Char :=
  if isTerm c then
    ((c :: cs).takeWhile (fun x => !(isLineTerm x)),
     (c :: cs).dropWhile (fun x => !(isLineTerm x)))
  else
    let a := (c :: cs).takeWhile (fun x => !(isTerm x))
    let r1 := (c :: cs).dropWhile (fun x => !(isTerm x))
    let b := r1.takeWhile isTerm
    let r2 := r1.dropWhile isTerm
    let w := r2.takeWhile isJsWhite
    (a ++ b ++ w, r2.dropWhile isJsWhite)

/-- The full scan `text.match(/[^.!?]+[.!?]*\s*|.+/g)`.  `fuel` bounds the
recursion; it is adequate whenever it is at least the length of the
input, since every match consumes at least one character. -/
def sentSplitF : Nat → List Char → List (List Char)
  | 0, _ => []
  | _ + 1, [] => []
  | fuel + 1, c :: cs => (sentStep c cs).1 :: sentSplitF fuel (sentStep c cs).2

/-- The sentence list produced by the source regex match on `l`
(`[]` stands for the `|| []` fallback on no match). -/
def sentSplit (l : List Char) : List (List Char) := sentSplitF l.length l

/-- The inner hard-split loop of `chunkText`:
`for (let i = 0; i < s.length; i += maxLength) pieces.push(s.substring(i, i + maxLength))`.
`fuel` bounds the recursion, adequate when at least the input length.
The JS loop terminates only for `maxLength ≥ 1`, the regime of every
claim; there the embedding agrees with the source. -/
def hardSplitF (m : Nat) : Nat → List Char → List (List Char)
  | 0, _ => []
  | _ + 1, [] => []
  | fuel + 1, c :: cs => (c :: cs.take (m - 1)) :: hardSplitF m fuel (cs.drop (m - 1))

/-- Hard split of one over-long sentence into pieces of `m` characters. -/
def hardSplit (m : Nat) (l : List Char) : List (List Char) := hardSplitF m l.length l

/-- Push the running chunk onto the chunk list when it is non-empty
(the `if (currentChunk) chunks.push(currentChunk)` pattern). -/
def pushNE (chunks : List (List Char)) (current : List Char) : List (List Char) :=
  if current = [] then chunks else chunks ++ [current]

/-- The main `for (const sentence of sentences)` loop of `chunkText`,
threading the `chunks` array and the `currentChunk` accumulator. -/
def chunkLoop (m : Nat) : List (List Char) → List (List Char) → List Char →
    List (List Char) × List Char
  | [], chunks, current => (chunks, current)
  | s :: rest, chunks, current =>
    if m < s.length then
      chunkLoop m rest (pushNE chunks current ++ hardSplit m s) []
    else if m < (current ++ s).length then
      chunkLoop m rest (pushNE chunks current) s
    else
      chunkLoop m rest chunks (current ++ s)

/-- `chunkText(text, maxLength)` from the chat component: split into
sentences, accumulate bounded chunks, flush the trailing chunk, and drop
chunks that are whitespace-only (`chunks.filter(c => c.trim().length > 0)`). -/
def chunkText (l : List Char) (m : Nat) : List (List Char) :=
  let p := chunkLoop m (sentSplit l) [] []
  (pushNE p.1 p.2).filter (fun c => !(jsTrim c).isEmpty)

/-! Basic facts about the splitter. -/

theorem length_dropWhile_le (p : Char → Bool) (l : List Char) :
    (l.dropWhile p).length ≤ l.length := by
  induction l with
  | nil => simp [List.dropWhile]
  | cons c cs ih =>
    by_cases h : p c
    · simp only [List.dropWhile, h]
      exact Nat.le_succ_of_le ih
    · simp [List.dropWhile, h]

theorem isTerm_not_lineTerm (c : Char) (h : isTerm c = true) : isLineTerm c = false := by
  simp only [isTerm, Bool.or_eq_true, beq_iff_eq] at h
  rcases h with (h | h) | h <;> subst h <;> decide

theorem sentStep_append (c : Char) (cs : List Char) :
    (sentStep c cs).1 ++ (sentStep c cs).2 = c :: cs := by
  unfold sentStep
  by_cases h : isTerm c
  · simp [h, List.takeWhile_append_dropWhile]
  · simp only [h, if_neg, Bool.false_eq_true, not_false_iff, List.append_assoc]
    rw [List.takeWhile_append_dropWhile, List.takeWhile_append_dropWhile,
      List.takeWhile_append_dropWhile]

theorem sentStep_fst_ne_nil (c : Char) (cs : List Char) : (sentStep c cs).1 ≠ [] := by
  unfold sentStep
  by_cases h : isTerm c
  · have hl : isLineTerm c = false := isTerm_not_lineTerm c h
    simp [h, List.takeWhile_cons, hl]
  · have hc : isTerm c = false := by simpa using h
    simp [h, List.takeWhile_cons, hc]

theorem sentStep_snd_length_le (c : Char) (cs : List Char) :
    (sentStep c cs).2.length ≤ cs.length := by
  unfold sentStep
  by_cases h : isTerm c
  · have hl : isLineTerm c = false := isTerm_not_lineTerm c h
    simp only [h, if_pos, List.dropWhile_cons, hl, Bool.not_false, if_pos]
    exact length_dropWhile_le _ cs
  · have hc : isTerm c = false := by simpa using h
    simp only [h, if_neg, Bool.false_eq_true, not_false_iff, List.dropWhile_cons, hc,
      Bool.not_false, if_pos]
    calc (((cs.dropWhile (fun x => !(isTerm x))).dropWhile isTerm).dropWhile isJsWhite).length
        ≤ ((cs.dropWhile (fun x => !(isTerm x))).dropWhile isTerm).length :=
          length_dropWhile_le _ _
      _ ≤ (cs.dropWhile (fun x => !(isTerm x))).length := length_dropWhile_le _ _
      _ ≤ cs.length := length_dropWhile_le _ _

theorem sentSplitF_fuel_eq :
    ∀ (m₁ m₂ : Nat) (l : List Char), l.length ≤ m₁ → l.length ≤ m₂ →
      sentSplitF m₁ l = sentSplitF m₂ l := by
  intro m₁
  induction m₁ with
  | zero =>
    intro m₂ l h1 _
    have hl : l = [] := List.length_eq_zero.mp (Nat.le_zero.mp h1)
    subst hl
    cases m₂ <;> rfl
  | succ n ih =>
    intro m₂ l h1 h2
    match l, m₂ with
    | [], m₂ => cases m₂ <;> rfl
    | c :: cs, 0 => exact absurd h2 (by simp)
    | c :: cs, k + 1 =>
      simp only [sentSplitF, List.cons.injEq, true_and]
      have hlen : (sentStep c cs).2.length ≤ cs.length := sentStep_snd_length_le c cs
      have h1' : (sentStep c cs).2.length ≤ n :=
        le_trans hlen (Nat.lt_succ_iff.mp (lt_of_lt_of_le (Nat.lt_succ_of_le le_rfl)
          (by simpa using h1)))
      have h2' : (sentStep c cs).2.length ≤ k :=
        le_trans hlen (Nat.lt_succ_iff.mp (lt_of_lt_of_le (Nat.lt_succ_of_le le_rfl)
          (by simpa using h2)))
      exact ih _ _ h1' h2'

theorem sentSplit_cons (c : Char) (cs : List Char) :
    sentSplit (c :: cs) = (sentStep c cs).1 :: sentSplit (sentStep c cs).2 := by
  unfold sentSplit
  simp only [List.length_cons, sentSplitF, List.cons.injEq, true_and]
  exact sentSplitF_fuel_eq cs.length (sentStep c cs).2.length (sentStep c cs).2
    (sentStep_snd_length_le c cs) le_rfl

theorem sentSplit_join : ∀ (n : Nat) (l : List Char), l.length ≤ n →
    (sentSplit l).flatten = l := by
  intro n
  induction n with
  | zero =>
    intro l h
    have hl : l = [] := List.length_eq_zero.mp (Nat.le_zero.mp h)
    subst hl
    rfl
  | succ k ih =>
    intro l h
    match l with
    | [] => rfl
    | c :: cs =>
      rw [sentSplit_cons, List.flatten_cons,
        ih _ (le_trans (sentStep_snd_length_le c cs) (by simpa using h)),
        sentStep_append]

theorem sentSplit_join_self (l : List Char) : (sentSplit l).flatten = l :=
  sentSplit_join l.length l le_rfl

theorem sentSplit_ne_nil : ∀ (n : Nat) (l : List Char), l.length ≤ n →
    ∀ s ∈ sentSplit l, s ≠ [] := by
  intro n
  induction n with
  | zero =>
    intro l h s hs
    have hl : l = [] := List.length_eq_zero.mp (Nat.le_zero.mp h)
    subst hl
    simp [sentSplit, sentSplitF] at hs
  | succ k ih =>
    intro l h s hs
    match l with
    | [] => simp [sentSplit, sentSplitF] at hs
    | c :: cs =>
      rw [sentSplit_cons] at hs
      rcases List.mem_cons.mp hs with h1 | h2
      · subst h1
        exact sentStep_fst_ne_nil c cs
      · exact ih _ (le_trans (sentStep_snd_length_le c cs) (by simpa using h)) s h2

/-! Facts about the hard-split loop. -/

theorem hardSplitF_fuel_eq (m : Nat) :
    ∀ (f₁ f₂ : Nat) (l : List Char), l.length ≤ f₁ → l.length ≤ f₂ →
      hardSplitF m f₁ l = hardSplitF m f₂ l := by
  intro f₁
  induction f₁ with
  | zero =>
    intro f₂ l h1 _
    have hl : l = [] := List.length_eq_zero.mp (Nat.le_zero.mp h1)
    subst hl
    cases f₂ <;> rfl
  | succ n ih =>
    intro f₂ l h1 h2
    match l, f₂ with
    | [], f₂ => cases f₂ <;> rfl
    | c :: cs, 0 => exact absurd h2 (by simp)
    | c :: cs, k + 1 =>
      simp only [hardSplitF, List.cons.injEq, true_and]
      have hd : (cs.drop (m - 1)).length ≤ cs.length := by
        rw [List.length_drop]
        exact Nat.sub_le _ _
      exact ih _ _ (le_trans hd (by simpa using h1)) (le_trans hd (by simpa using h2))

theorem hardSplit_cons (m : Nat) (c : Char) (cs : List Char) :
    hardSplit m (c :: cs) = (c :: cs.take (m - 1)) :: hardSplit m (cs.drop (m - 1)) := by
  unfold hardSplit
  simp only [List.length_cons, hardSplitF, List.cons.injEq, true_and]
  have hd : (cs.drop (m - 1)).length ≤ cs.length := by
    rw [List.length_drop]
    exact Nat.sub_le _ _
  exact hardSplitF_fuel_eq m cs.length (cs.drop (m - 1)).length _ hd le_rfl

theorem hardSplit_flatten (m : Nat) : ∀ (n : Nat) (l : List Char), l.length ≤ n →
    (hardSplit m l).flatten = l := by
  intro n
  induction n with
  | zero =>
    intro l h
    have hl : l = [] := List.length_eq_zero.mp (Nat.le_zero.mp h)
    subst hl
    rfl
  | succ k ih =>
    intro l h
    match l with
    | [] => rfl
    | c :: cs =>
      rw [hardSplit_cons, List.flatten_cons]
      have hd : (cs.drop (m - 1)).length ≤ k := by
        rw [List.length_drop]
        exact le_trans (Nat.sub_le _ _) (by simpa using h)
      rw [ih _ hd]
      simp [List.take_append_drop]

theorem hardSplit_flatten_self (m : Nat) (l : List Char) : (hardSplit m l).flatten = l :=
  hardSplit_flatten m l.length l le_rfl

theorem hardSplit_eq_nil_iff (m : Nat) (l : List Char) : hardSplit m l = [] ↔ l = [] := by
  constructor
  · intro h
    match l with
    | [] => rfl
    | c :: cs => rw [hardSplit_cons] at h; exact absurd h (by simp)
  · intro h; subst h; rfl

theorem hardSplit_mem_bounds (m : Nat) (hm : 1 ≤ m) :
    ∀ (n : Nat) (l : List Char), l.length ≤ n →
      ∀ c ∈ hardSplit m l, 1 ≤ c.length ∧ c.length ≤ m := by
  intro n
  induction n with
  | zero =>
    intro l h c hc
    have hl : l = [] := List.length_eq_zero.mp (Nat.le_zero.mp h)
    subst hl
    simp [hardSplit, hardSplitF] at hc
  | succ k ih =>
    intro l h c hc
    match l with
    | [] => simp [hardSplit, hardSplitF] at hc
    | x :: cs =>
      rw [hardSplit_cons] at hc
      rcases List.mem_cons.mp hc with h1 | h2
      · subst h1
        constructor
        · simp
        · simp only [List.length_cons, List.length_take]
          have : min (m - 1) cs.length ≤ m - 1 := Nat.min_le_left _ _
          omega
      · have hd : (cs.drop (m - 1)).length ≤ k := by
          rw [List.length_drop]
          exact le_trans (Nat.sub_le _ _) (by simpa using h)
        exact ih _ hd c h2

theorem hardSplit_dropLast_exact (m : Nat) (hm : 1 ≤ m) :
    ∀ (n : Nat) (l : List Char), l.length ≤ n →
      ∀ c ∈ (hardSplit m l).dropLast, c.length = m := by
  intro n
  induction n with
  | zero =>
    intro l h c hc
    have hl : l = [] := List.length_eq_zero.mp (Nat.le_zero.mp h)
    subst hl
    simp [hardSplit, hardSplitF] at hc
  | succ k ih =>
    intro l h c hc
    match l with
    | [] => simp [hardSplit, hardSplitF] at hc
    | x :: cs =>
      rw [hardSplit_cons] at hc
      have hd : (cs.drop (m - 1)).length ≤ k := by
        rw [List.length_drop]
        exact le_trans (Nat.sub_le _ _) (by simpa using h)
      match htail : hardSplit m (cs.drop (m - 1)) with
      | [] =>
        rw [htail] at hc
        simp [List.dropLast_single] at hc
      | t :: ts =>
        rw [htail, List.dropLast_cons₂] at hc
        rcases List.mem_cons.mp hc with h1 | h2
        · subst h1
          have hne : cs.drop (m - 1) ≠ [] := by
            intro hnil
            rw [hnil] at htail
            exact absurd htail.symm (by simp [hardSplit, hardSplitF])
          have hlen : m - 1 < cs.length := by
            by_contra hge
            exact hne (List.drop_eq_nil_of_le (Nat.le_of_not_lt hge))
          simp only [List.length_cons, List.length_take]
          omega
        · rw [← htail] at h2
          exact ih _ hd c h2

/-! Facts about the chunk accumulation loop. -/

theorem pushNE_flatten (ch : List (List Char)) (cur : List Char) :
    (pushNE ch cur).flatten = ch.flatten ++ cur := by
  unfold pushNE
  split
  · simp_all
  · simp

theorem pushNE_mem (ch : List (List Char)) (cur c : List Char) (h : c ∈ pushNE ch cur) :
    c ∈ ch ∨ c = cur := by
  unfold pushNE at h
  split at h
  · exact Or.inl h
  · rcases List.mem_append.mp h with h1 | h2
    · exact Or.inl h1
    · exact Or.inr (by simpa using h2)

theorem chunkLoop_flatten (m : Nat) : ∀ (sents ch : List (List Char)) (cur : List Char),
    (pushNE (chunkLoop m sents ch cur).1 (chunkLoop m sents ch cur).2).flatten =
      ch.flatten ++ cur ++ sents.flatten := by
  intro sents
  induction sents with
  | nil => intro ch cur; simp [chunkLoop, pushNE_flatten]
  | cons s rest ih =>
    intro ch cur
    simp only [chunkLoop]
    split
    · rw [ih, List.flatten_cons, List.flatten_append, pushNE_flatten,
        hardSplit_flatten_self]
      simp [List.append_assoc]
    · split
      · rw [ih, pushNE_flatten, List.flatten_cons]
        simp [List.append_assoc]
      · rw [ih, List.flatten_cons]
        simp [List.append_assoc]

theorem chunkLoop_bound (m : Nat) (hm : 1 ≤ m) :
    ∀ (sents ch : List (List Char)) (cur : List Char),
      cur.length ≤ m → (∀ c ∈ ch, c.length ≤ m) →
      ∀ c ∈ pushNE (chunkLoop m sents ch cur).1 (chunkLoop m sents ch cur).2,
        c.length ≤ m := by
  intro sents
  induction sents with
  | nil =>
    intro ch cur hcur hch c hc
    simp only [chunkLoop] at hc
    rcases pushNE_mem ch cur c hc with h1 | h2
    · exact hch c h1
    · subst h2; exact hcur
  | cons s rest ih =>
    intro ch cur hcur hch c hc
    simp only [chunkLoop] at hc
    split at hc
    · refine ih _ [] (by simp [hm]) ?_ c hc
      intro d hd
      rcases List.mem_append.mp hd with h1 | h2
      · rcases pushNE_mem ch cur d h1 with ha | hb
        · exact hch d ha
        · subst hb; exact hcur
      · exact (hardSplit_mem_bounds m hm s.length s le_rfl d h2).2
    · split at hc
      · rename_i hlong _
        refine ih _ s (by omega) ?_ c hc
        intro d hd
        rcases pushNE_mem ch cur d hd with ha | hb
        · exact hch d ha
        · subst hb; exact hcur
      · rename_i hfit
        exact ih _ (cur ++ s) (by omega) hch c hc

theorem chunkLoop_small (m : Nat) : ∀ (sents ch : List (List Char)) (cur : List Char),
    cur.length + sents.flatten.length ≤ m →
    chunkLoop m sents ch cur = (ch, cur ++ sents.flatten) := by
  intro sents
  induction sents with
  | nil => intro ch cur _; simp [chunkLoop]
  | cons s rest ih =>
    intro ch cur h
    have hlens : s.length + rest.flatten.length = (s :: rest).flatten.length := by
      simp [List.flatten_cons]
    simp only [List.flatten_cons] at h ⊢
    have hs : ¬ m < s.length := by
      simp only [List.length_append] at h
      omega
    have hcs : ¬ m < (cur ++ s).length := by
      simp only [List.length_append] at h ⊢
      omega
    simp only [chunkLoop, if_neg hs, if_neg hcs]
    rw [ih _ (cur ++ s) (by simp only [List.length_append] at h ⊢; omega)]
    simp [List.append_assoc]

/-! Facts about JS trim. -/

theorem jsTrim_eq_nil_iff (l : List Char) :
    jsTrim l = [] ↔ ∀ c ∈ l, isJsWhite c = true := by
  unfold jsTrim
  rw [List.reverse_eq_nil_iff, List.dropWhile_eq_nil_iff]
  constructor
  · intro h c hc
    by_cases hw : isJsWhite c = true
    · exact hw
    · exfalso
      have hsplit := List.takeWhile_append_dropWhile (p := isJsWhite) (l := l)
      rcases List.mem_append.mp (by rw [hsplit]; exact hc) with h1 | h2
      · exact hw (List.mem_takeWhile_imp h1)
      · exact hw (h c (List.mem_reverse.mpr h2))
  · intro h c hc
    exact h c ((List.dropWhile_sublist isJsWhite).subset (List.mem_reverse.mp hc))

theorem jsTrim_ne_nil_iff (l : List Char) :
    (!(jsTrim l).isEmpty) = true ↔ ∃ c ∈ l, isJsWhite c = false := by
  constructor
  · intro h
    by_contra hno
    push_neg at hno
    have hall : ∀ c ∈ l, isJsWhite c = true := by
      intro c hc
      have hne := hno c hc
      revert hne
      cases isJsWhite c <;> simp
    rw [(jsTrim_eq_nil_iff l).mpr hall] at h
    simp at h
  · rintro ⟨c, hc, hw⟩
    by_contra h
    have hemp : (jsTrim l).isEmpty = true := by
      revert h
      cases (jsTrim l).isEmpty <;> simp
    have hnil : jsTrim l = [] := List.isEmpty_iff.mp hemp
    have := (jsTrim_eq_nil_iff l).mp hnil c hc
    rw [this] at hw
    exact absurd hw (by simp)

/-! Claim theorems about `chunkText`. -/

/-- C4: for every input text and every maxLength ≥ 1, every chunk
returned by `chunkText` has length ≤ maxLength; and the hard split of a
single sentence produces consecutive pieces (their concatenation
restores the sentence) in which every piece except possibly the last has
length exactly maxLength and every piece is non-empty and of length at
most maxLength. -/
theorem c4_chunk_size_bound (l : List Char) (m : Nat) (hm : 1 ≤ m) :
    (∀ c ∈ chunkText l m, c.length ≤ m) ∧
    (∀ s : List Char, (hardSplit m s).flatten = s ∧
      (∀ c ∈ (hardSplit m s).dropLast, c.length = m) ∧
      (∀ c ∈ hardSplit m s, 1 ≤ c.length ∧ c.length ≤ m)) := by
  constructor
  · intro c hc
    simp only [chunkText] at hc
    exact chunkLoop_bound m hm (sentSplit l) [] [] (by simp) (by simp) c
      (List.mem_of_mem_filter hc)
  · intro s
    exact ⟨hardSplit_flatten_self m s,
      hardSplit_dropLast_exact m hm s.length s le_rfl,
      hardSplit_mem_bounds m hm s.length s le_rfl⟩

/-- Witness for C4 at a concrete input: the text "ab. cd" with limit 4. -/
theorem c4_chunk_size_bound_witness :
    (∀ c ∈ chunkText ('a' :: 'b' :: '.' :: ' ' :: 'c' :: 'd' :: []) 4, c.length ≤ 4) ∧
    (∀ s : List Char, (hardSplit 4 s).flatten = s ∧
      (∀ c ∈ (hardSplit 4 s).dropLast, c.length = 4) ∧
      (∀ c ∈ hardSplit 4 s, 1 ≤ c.length ∧ c.length ≤ 4)) :=
  c4_chunk_size_bound ('a' :: 'b' :: '.' :: ' ' :: 'c' :: 'd' :: []) 4 (by decide)

/-- C7 counterexample: the input " a " is non-whitespace and has length
3 ≤ 5, but `chunkText` returns the chunk " a " unchanged, not the
trimmed input "a": the filter drops whitespace-only chunks yet never
trims the chunks it keeps. -/
theorem c7_counterexample :
    (∃ c ∈ (' ' :: 'a' :: ' ' :: []), isJsWhite c = false) ∧
    (' ' :: 'a' :: ' ' :: []).length ≤ 5 ∧
    chunkText (' ' :: 'a' :: ' ' :: []) 5 ≠ [jsTrim (' ' :: 'a' :: ' ' :: [])] := by
  refine ⟨⟨'a', by decide, by decide⟩, by decide, ?_⟩
  decide

/-- C7 amended: for every non-whitespace text whose length is ≤
maxLength, `chunkText` returns exactly one chunk, and that chunk equals
the input itself (not the trimmed input: the source filters
whitespace-only chunks but keeps surviving chunks untrimmed). -/
theorem c7_short_input_single_chunk (l : List Char) (m : Nat)
    (hw : ∃ c ∈ l, isJsWhite c = false) (hlen : l.length ≤ m) :
    chunkText l m = [l] := by
  have hne : l ≠ [] := by
    rintro rfl
    rcases hw with ⟨c, hc, _⟩
    simp at hc
  have hsmall : (0 : Nat) + (sentSplit l).flatten.length ≤ m := by
    rw [sentSplit_join_self l]
    simpa using hlen
  simp only [chunkText, chunkLoop_small m (sentSplit l) [] [] (by simpa using hsmall)]
  rw [List.nil_append, sentSplit_join_self l]
  simp only [pushNE, if_neg hne, List.nil_append]
  rw [List.filter_cons]
  simp [(jsTrim_ne_nil_iff l).mpr hw]

/-- Witness for C7 amended at a concrete input: "hi" with limit 5. -/
theorem c7_short_input_single_chunk_witness :
    chunkText ('h' :: 'i' :: []) 5 = [('h' :: 'i' :: [])] :=
  c7_short_input_single_chunk ('h' :: 'i' :: []) 5 ⟨'h', by decide, by decide⟩ (by decide)

/-- C10: the chunks returned by `chunkText` arise from a decomposition
of the input into consecutive pieces: there is a list of pieces whose
concatenation is exactly the input, and the result is that list with its
whitespace-only pieces deleted.  Hence chunks are pairwise
non-overlapping substrings of the input in input order, and no
non-whitespace character is lost, duplicated or reordered. -/
theorem c10_chunks_lossless (l : List Char) (m : Nat) (hm : 1 ≤ m) :
    ∃ pieces : List (List Char),
      pieces.flatten = l ∧
      chunkText l m = pieces.filter (fun c => !(jsTrim c).isEmpty) ∧
      ∀ c ∈ pieces, (!(jsTrim c).isEmpty) = false → ∀ x ∈ c, isJsWhite x = true := by
  refine ⟨pushNE (chunkLoop m (sentSplit l) [] []).1 (chunkLoop m (sentSplit l) [] []).2,
    ?_, rfl, ?_⟩
  · rw [chunkLoop_flatten]
    simp [sentSplit_join_self]
  · intro c _ hfalse x hx
    have hnil : jsTrim c = [] := by
      revert hfalse
      cases hemp : (jsTrim c).isEmpty
      · simp
      · intro
        exact List.isEmpty_iff.mp hemp
    exact (jsTrim_eq_nil_iff c).mp hnil x hx

/-- Witness for C10 at a concrete input: the text "x. y" with limit 2. -/
theorem c10_chunks_lossless_witness :
    ∃ pieces : List (List Char),
      pieces.flatten = ('x' :: '.' :: ' ' :: 'y' :: []) ∧
      chunkText ('x' :: '.' :: ' ' :: 'y' :: []) 2 =
        pieces.filter (fun c => !(jsTrim c).isEmpty) ∧
      ∀ c ∈ pieces, (!(jsTrim c).isEmpty) = false → ∀ x ∈ c, isJsWhite x = true :=
  c10_chunks_lossless ('x' :: '.' :: ' ' :: 'y' :: []) 2 (by decide)

/-! The playback scheduling step shared by `playAudio` (realtime session)
and `queueAndPlayAudio` (TTS): a buffer is scheduled at
`max(nextStartTime, clockNow())` and `nextStartTime` advances by the
buffer duration. -/

/-- Run a sequence of enqueue calls against the scheduler clock state.
Each input pairs the output clock reading `now` at the call with the
decoded buffer duration; the result lists each entry's scheduled start
time with its duration. -/
def runEnqueues : ℚ → List (ℚ × ℚ) → List (ℚ × ℚ)
  | _, [] => []
  | nst, (now, dur) :: rest =>
    (max nst now, dur) :: runEnqueues (max nst now + dur) rest

theorem runEnqueues_length (nst : ℚ) (inputs : List (ℚ × ℚ)) :
    (runEnqueues nst inputs).length = inputs.length := by
  induction inputs generalizing nst with
  | nil => rfl
  | cons p rest ih =>
    match p with
    | (now, dur) => simp [runEnqueues, ih]

theorem runEnqueues_head_ge (nst : ℚ) (inputs : List (ℚ × ℚ)) (h : inputs ≠ []) :
    nst ≤ ((runEnqueues nst inputs).getD 0 (0, 0)).1 := by
  match inputs with
  | [] => exact absurd rfl h
  | (now, dur) :: rest => simp [runEnqueues, le_max_left]

theorem runEnqueues_snd (nst : ℚ) (inputs : List (ℚ × ℚ)) (k : Nat) :
    ((runEnqueues nst inputs).getD k (0, 0)).2 = (inputs.getD k (0, 0)).2 := by
  induction inputs generalizing nst k with
  | nil => simp [runEnqueues]
  | cons p rest ih =>
    match p with
    | (now, dur) =>
      match k with
      | 0 => simp [runEnqueues]
      | k + 1 =>
        simp only [runEnqueues, List.getD_cons_succ]
        exact ih _ k

theorem runEnqueues_no_overlap (inputs : List (ℚ × ℚ)) (nst : ℚ) (k : Nat)
    (h : k + 1 < (runEnqueues nst inputs).length) :
    ((runEnqueues nst inputs).getD k (0, 0)).1 + ((runEnqueues nst inputs).getD k (0, 0)).2
      ≤ ((runEnqueues nst inputs).getD (k + 1) (0, 0)).1 := by
  induction inputs generalizing nst k with
  | nil => simp [runEnqueues] at h
  | cons p rest ih =>
    match p with
    | (now, dur) =>
      match k with
      | 0 =>
        have hrest : rest ≠ [] := by
          intro hr
          rw [hr] at h
          simp [runEnqueues] at h
        simpa [runEnqueues] using runEnqueues_head_ge (max nst now + dur) rest hrest
      | k + 1 =>
        simp only [runEnqueues, List.getD_cons_succ]
        exact ih (max nst now + dur) k (by simpa [runEnqueues] using h)

/-- C2: every enqueue schedules its buffer at
`startTime = max(nextStartTime, clockNow())` and advances `nextStartTime`
by the buffer duration (first conjunct, the unfolding of one step);
consequently the scheduled start of entry k+1 is at least the scheduled
end (start + duration) of entry k, and when every duration is
non-negative the entries play in call order (starts non-decreasing). -/
theorem c2_playback_no_overlap (inputs : List (ℚ × ℚ)) (nst : ℚ) (k : Nat)
    (h : k + 1 < (runEnqueues nst inputs).length) :
    (∀ now dur rest, runEnqueues nst ((now, dur) :: rest) =
      (max nst now, dur) :: runEnqueues (max nst now + dur) rest) ∧
    ((runEnqueues nst inputs).getD k (0, 0)).1 + ((runEnqueues nst inputs).getD k (0, 0)).2
      ≤ ((runEnqueues nst inputs).getD (k + 1) (0, 0)).1 ∧
    ((∀ p ∈ inputs, 0 ≤ p.2) →
      ((runEnqueues nst inputs).getD k (0, 0)).1
        ≤ ((runEnqueues nst inputs).getD (k + 1) (0, 0)).1) := by
  refine ⟨fun now dur rest => rfl, runEnqueues_no_overlap inputs nst k h, ?_⟩
  intro hpos
  have hno := runEnqueues_no_overlap inputs nst k h
  have hk : k < inputs.length := by
    rw [runEnqueues_length] at h
    omega
  have hdur : 0 ≤ ((runEnqueues nst inputs).getD k (0, 0)).2 := by
    rw [runEnqueues_snd]
    have hmem : inputs.getD k (0, 0) ∈ inputs := by
      rw [List.getD_eq_getElem inputs (0, 0) hk]
      exact List.getElem_mem hk
    exact hpos _ hmem
  linarith

/-- Witness for C2: three buffers of duration 1 enqueued at clock time 0. -/
theorem c2_playback_no_overlap_witness :
    (∀ now dur rest, runEnqueues 0 ((now, dur) :: rest) =
      (max 0 now, dur) :: runEnqueues (max 0 now + dur) rest) ∧
    ((runEnqueues 0 [((0 : ℚ), (1 : ℚ)), (0, 1), (0, 1)]).getD 0 (0, 0)).1 +
      ((runEnqueues 0 [((0 : ℚ), (1 : ℚ)), (0, 1), (0, 1)]).getD 0 (0, 0)).2
      ≤ ((runEnqueues 0 [((0 : ℚ), (1 : ℚ)), (0, 1), (0, 1)]).getD 1 (0, 0)).1 ∧
    ((∀ p ∈ [((0 : ℚ), (1 : ℚ)), (0, 1), (0, 1)], 0 ≤ p.2) →
      ((runEnqueues 0 [((0 : ℚ), (1 : ℚ)), (0, 1), (0, 1)]).getD 0 (0, 0)).1
        ≤ ((runEnqueues 0 [((0 : ℚ), (1 : ℚ)), (0, 1), (0, 1)]).getD 1 (0, 0)).1) :=
  c2_playback_no_overlap [((0 : ℚ), (1 : ℚ)), (0, 1), (0, 1)] 0 0 (by decide)

/-! The realtime session model from `useLiveAudio.ts`.  Transcript ids in
the source are the strings `t_1`, `t_2`, ... produced by
`++transcriptIdCounter.current`; the constant prefix carries no
information, so ids are modelled as the counter value itself. -/

/-- Speaker role of a transcript entry. -/
inductive Source
  | user
  | model
deriving DecidableEq, Repr

/-- An immutable transcript record `{id, text, source}`. -/
structure Transcript where
  id : Nat
  text : List Char
  source : Source
deriving DecidableEq, Repr

/-- The transcript-related mutable state of one live session: the two
utterance accumulators, the id counter and the ordered history. -/
structure LiveState where
  userBuf : List Char
  modelBuf : List Char
  counter : Nat
  history : List Transcript
deriving DecidableEq, Repr

/-- The `serverContent.turnComplete` commit block of `onmessage`: trim
both buffers, append one entry per non-empty trimmed buffer (user first,
then model, each with a freshly incremented id), then clear both
buffers. -/
def commitTurn (st : LiveState) : LiveState :=
  let finalUserText := jsTrim st.userBuf
  let finalModelText := jsTrim st.modelBuf
  let p1 :=
    if finalUserText ≠ [] then
      ([Transcript.mk (st.counter + 1) finalUserText Source.user], st.counter + 1)
    else ([], st.counter)
  let p2 :=
    if finalModelText ≠ [] then
      (p1.1 ++ [Transcript.mk (p1.2 + 1) finalModelText Source.model], p1.2 + 1)
    else p1
  { userBuf := [], modelBuf := [], counter := p2.2, history := st.history ++ p2.1 }

/-- `commitFinalUtterances` from the source: identical to the turn
commit except that the buffers are NOT trimmed, so a whitespace-only
buffer is truthy and is committed as it stands. -/
def commitFinal (st : LiveState) : LiveState :=
  let p1 :=
    if st.userBuf ≠ [] then
      ([Transcript.mk (st.counter + 1) st.userBuf Source.user], st.counter + 1)
    else ([], st.counter)
  let p2 :=
    if st.modelBuf ≠ [] then
      (p1.1 ++ [Transcript.mk (p1.2 + 1) st.modelBuf Source.model], p1.2 + 1)
    else p1
  { userBuf := [], modelBuf := [], counter := p2.2, history := st.history ++ p2.1 }

/-- One inbound tool-function call: `{id, name, args}` where only the
`content` argument is consumed (`none` models an absent argument). -/
structure FunctionCall where
  id : Nat
  name : String
  content : Option (List Char)
deriving DecidableEq, Repr

/-- A tool-result acknowledgment `{id, name, response: {result}}`. -/
structure ToolAck where
  id : Nat
  name : String
  result : String
deriving DecidableEq, Repr

/-- The `message.toolCall.functionCalls` loop of `onmessage`: for each
call named `addToScratchpad` whose `content` argument is truthy (a
non-empty string), invoke the scratchpad callback with the content and
send an acknowledgment referencing the call id.  Returns the list of
callback invocations and the list of acknowledgments sent. -/
def processToolCalls : List FunctionCall → List (List Char) × List ToolAck
  | [] => ([], [])
  | fc :: rest =>
    let r := processToolCalls rest
    match fc.content with
    | some c =>
      if fc.name = "addToScratchpad" ∧ c ≠ [] then
        (c :: r.1, ToolAck.mk fc.id fc.name "ok, content added." :: r.2)
      else r
    | none => r

/-- The subset of an inbound channel message consumed by `onmessage`. -/
structure ServerMessage where
  functionCalls : List FunctionCall
  inputTranscription : Option (List Char)
  outputTranscription : Option (List Char)
  turnComplete : Bool
  audioData : Option (ℚ × ℚ)
  interrupted : Bool
deriving DecidableEq, Repr

/-- Full mutable state of the realtime session hook: transcript state,
the four nullable resource handles, the closed flags of the two audio
contexts, the playback scheduler state, the loudness scalar and the
connection flags. -/
structure SessionState where
  live : LiveState
  hasSession : Bool
  hasMediaStream : Bool
  hasScriptProcessor : Bool
  hasSourceNode : Bool
  inputCtxClosed : Bool
  outputCtxClosed : Bool
  sources : Nat
  nextStartTime : ℚ
  audioLevel : ℚ
  isConnected : Bool
  isConnecting : Bool
  errorMsg : Option String
deriving DecidableEq, Repr

/-- The `onmessage` handler: tool calls, then append the partial input
and output transcriptions to the utterance buffers, then the
turn-complete commit, then enqueue inline audio (`playAudio`, modelled
by its scheduler effect with the clock reading and decoded duration in
`audioData`), then the interruption handler (`stopAllPlayback`).
Returns the new state, the scratchpad callback invocations and the
acknowledgments sent. -/
def handleMessage (s : SessionState) (m : ServerMessage) :
    SessionState × List (List Char) × List ToolAck :=
  let calls := processToolCalls m.functionCalls
  let live1 : LiveState :=
    { s.live with
        userBuf := s.live.userBuf ++ m.inputTranscription.getD []
        modelBuf := s.live.modelBuf ++ m.outputTranscription.getD [] }
  let live2 := if m.turnComplete then commitTurn live1 else live1
  let s1 := { s with live := live2 }
  let s2 :=
    match m.audioData with
    | some p =>
      { s1 with nextStartTime := max s1.nextStartTime p.1 + p.2, sources := s1.sources + 1 }
    | none => s1
  let s3 := if m.interrupted then { s2 with sources := 0, nextStartTime := 0 } else s2
  (s3, calls)

/-- `stopSession` from the source: close the channel handle (errors
swallowed), null and release all four resource handles, close both audio
contexts, `stopAllPlayback` (halt every active source, clear the set,
reset the scheduler clock), zero the loudness scalar, clear both
connection flags, and finally `commitFinalUtterances`. -/
def stopSession (s : SessionState) : SessionState :=
  { live := commitFinal s.live
    hasSession := false
    hasMediaStream := false
    hasScriptProcessor := false
    hasSourceNode := false
    inputCtxClosed := true
    outputCtxClosed := true
    sources := 0
    nextStartTime := 0
    audioLevel := 0
    isConnected := false
    isConnecting := false
    errorMsg := s.errorMsg }

/-- The synchronous prefix of `startSession`: set the connecting flag,
clear the error, empty the history, clear both utterance buffers and
reset the transcript id counter to 0. -/
def startSessionInit (s : SessionState) : SessionState :=
  { s with
      isConnecting := true
      errorMsg := none
      live := { userBuf := [], modelBuf := [], counter := 0, history := [] } }

/-! Claim theorems about the transcript commit on turn completion. -/

/-- C1: on a turn-complete marker both utterance buffers are trimmed and
cleared, and for each buffer that is non-empty after trimming (user
first, then model) exactly one transcript entry with the trimmed text,
the matching source and a fresh monotonically increasing id is appended
to the history; in particular, when only the model buffer is non-empty
exactly one model entry is appended and no user entry appears.  The last
conjunct ties the commit to the `onmessage` handler. -/
theorem c1_turn_commit (st : LiveState) :
    ((commitTurn st).userBuf = [] ∧ (commitTurn st).modelBuf = []) ∧
    (jsTrim st.userBuf ≠ [] → jsTrim st.modelBuf ≠ [] →
      (commitTurn st).history = st.history ++
        [Transcript.mk (st.counter + 1) (jsTrim st.userBuf) Source.user,
         Transcript.mk (st.counter + 2) (jsTrim st.modelBuf) Source.model] ∧
      (commitTurn st).counter = st.counter + 2) ∧
    (jsTrim st.userBuf ≠ [] → jsTrim st.modelBuf = [] →
      (commitTurn st).history = st.history ++
        [Transcript.mk (st.counter + 1) (jsTrim st.userBuf) Source.user] ∧
      (commitTurn st).counter = st.counter + 1) ∧
    (jsTrim st.userBuf = [] → jsTrim st.modelBuf ≠ [] →
      (commitTurn st).history = st.history ++
        [Transcript.mk (st.counter + 1) (jsTrim st.modelBuf) Source.model] ∧
      (commitTurn st).counter = st.counter + 1) ∧
    (jsTrim st.userBuf = [] → jsTrim st.modelBuf = [] →
      (commitTurn st).history = st.history) ∧
    (∀ (s : SessionState) (m : ServerMessage), m.turnComplete = true →
      m.inputTranscription = none → m.outputTranscription = none →
      (handleMessage s m).1.live = commitTurn s.live) := by
  refine ⟨⟨rfl, rfl⟩, ?_, ?_, ?_, ?_, ?_⟩
  · intro hu hm
    simp [commitTurn, hu, hm]
  · intro hu hm
    simp [commitTurn, hu, hm]
  · intro hu hm
    simp [commitTurn, hu, hm]
  · intro hu hm
    simp [commitTurn, hu, hm]
  · intro s m ht hin hout
    unfold handleMessage
    rcases m.audioData with _ | p <;>
      by_cases hi : m.interrupted <;>
        simp [ht, hin, hout, hi]

/-- Witness for C1: user buffer " hi " and model buffer "ok." at counter
5 commit as entries with ids 6 and 7, user first. -/
theorem c1_turn_commit_witness :
    (commitTurn (LiveState.mk (' ' :: 'h' :: 'i' :: ' ' :: []) ('o' :: 'k' :: '.' :: []) 5
        [])).history =
      [Transcript.mk 6 ('h' :: 'i' :: []) Source.user,
       Transcript.mk 7 ('o' :: 'k' :: '.' :: []) Source.model] := by
  have h := (c1_turn_commit (LiveState.mk (' ' :: 'h' :: 'i' :: ' ' :: [])
    ('o' :: 'k' :: '.' :: []) 5 [])).2.1 (by decide) (by decide)
  rw [h.1]
  decide

/-! Claim theorems about the final commit performed by session stop. -/

/-- C5 counterexample: with a whitespace-only user buffer " " the claim
predicts that the final commit on `stop()` trims it and appends no
entry; the source `commitFinalUtterances` does not trim, the buffer is
truthy, and one user entry with the raw text " " is appended. -/
theorem c5_counterexample :
    jsTrim (' ' :: []) = [] ∧
    (stopSession (SessionState.mk (LiveState.mk (' ' :: []) [] 0 []) true true true true
        false false 1 3 2 true false none)).live.history =
      [Transcript.mk 1 (' ' :: []) Source.user] := by
  constructor
  · decide
  · decide

/-- C5 amended: `stop()` performs one final commit via
`commitFinalUtterances`: for each buffer that is non-empty as it stands
(NOT trimmed; user first, then model) exactly one transcript entry with
the buffer's untrimmed text, matching source and fresh increasing id is
appended, and both buffers are cleared.  Buffered partial text is never
silently dropped, but a whitespace-only buffer DOES produce an entry,
and committed text keeps its surrounding whitespace. -/
theorem c5_final_commit (s : SessionState) :
    ((stopSession s).live.userBuf = [] ∧ (stopSession s).live.modelBuf = []) ∧
    (stopSession s).live = commitFinal s.live ∧
    (s.live.userBuf ≠ [] → s.live.modelBuf ≠ [] →
      (stopSession s).live.history = s.live.history ++
        [Transcript.mk (s.live.counter + 1) s.live.userBuf Source.user,
         Transcript.mk (s.live.counter + 2) s.live.modelBuf Source.model]) ∧
    (s.live.userBuf ≠ [] → s.live.modelBuf = [] →
      (stopSession s).live.history = s.live.history ++
        [Transcript.mk (s.live.counter + 1) s.live.userBuf Source.user]) ∧
    (s.live.userBuf = [] → s.live.modelBuf ≠ [] →
      (stopSession s).live.history = s.live.history ++
        [Transcript.mk (s.live.counter + 1) s.live.modelBuf Source.model]) ∧
    (s.live.userBuf = [] → s.live.modelBuf = [] →
      (stopSession s).live.history = s.live.history) := by
  refine ⟨⟨rfl, rfl⟩, rfl, ?_, ?_, ?_, ?_⟩
  · intro hu hm
    simp [stopSession, commitFinal, hu, hm]
  · intro hu hm
    simp [stopSession, commitFinal, hu, hm]
  · intro hu hm
    simp [stopSession, commitFinal, hu, hm]
  · intro hu hm
    simp [stopSession, commitFinal, hu, hm]

/-- Witness for C5 amended: stopping with user buffer "a " and model
buffer "b" commits both untrimmed, ids 1 then 2. -/
theorem c5_final_commit_witness :
    (stopSession (SessionState.mk (LiveState.mk ('a' :: ' ' :: []) ('b' :: []) 0 [])
        true true true true false false 1 3 2 true false none)).live.history =
      [Transcript.mk 1 ('a' :: ' ' :: []) Source.user,
       Transcript.mk 2 ('b' :: []) Source.model] := by
  have h := (c5_final_commit (SessionState.mk (LiveState.mk ('a' :: ' ' :: []) ('b' :: []) 0 [])
    true true true true false false 1 3 2 true false none)).2.2.1 (by decide) (by decide)
  rw [h]
  decide

/-! Claim theorem about teardown idempotence. -/

theorem commitFinal_of_empty (l : LiveState) (hu : l.userBuf = []) (hm : l.modelBuf = []) :
    commitFinal l = l := by
  cases l with
  | mk u mo c h =>
    simp only at hu hm
    subst hu
    subst hm
    simp [commitFinal]

/-- C6: `stopSession` is total (in the source every close error is
swallowed, so no error escapes) and idempotent: applied to the result of
a previous stop, or to a state in which nothing was ever started, it
changes nothing; and after any stop all four resource handles are null,
both audio contexts are closed, playback is stopped (empty active set,
scheduler clock 0), the loudness scalar is zero and both connection
flags are cleared. -/
theorem c6_stop_idempotent (s : SessionState) :
    stopSession (stopSession s) = stopSession s ∧
    (stopSession s).hasSession = false ∧
    (stopSession s).hasMediaStream = false ∧
    (stopSession s).hasScriptProcessor = false ∧
    (stopSession s).hasSourceNode = false ∧
    (stopSession s).inputCtxClosed = true ∧
    (stopSession s).outputCtxClosed = true ∧
    (stopSession s).sources = 0 ∧
    (stopSession s).nextStartTime = 0 ∧
    (stopSession s).audioLevel = 0 ∧
    (stopSession s).isConnected = false ∧
    (stopSession s).isConnecting = false := by
  refine ⟨?_, rfl, rfl, rfl, rfl, rfl, rfl, rfl, rfl, rfl, rfl, rfl⟩
  show stopSession (stopSession s) = stopSession s
  have hlive : commitFinal (commitFinal s.live) = commitFinal s.live :=
    commitFinal_of_empty _ rfl rfl
  simp [stopSession, hlive]

/-! Claim theorems about the `addToScratchpad` tool-call handler. -/

/-- C8 counterexample: a function call named `addToScratchpad` whose
`content` argument is the empty string is falsy under the source's
`fc.args.content` truthiness guard, so neither the scratchpad callback
nor the acknowledgment is produced, while the claim requires both. -/
theorem c8_counterexample :
    (handleMessage
      (SessionState.mk (LiveState.mk [] [] 0 []) true true true true false false 0 0 0
        true false none)
      (ServerMessage.mk [FunctionCall.mk 0 "addToScratchpad" (some [])]
        none none false none false)).2 = ([], []) := by
  decide

theorem processToolCalls_cons (g : FunctionCall) (rest : List FunctionCall) :
    processToolCalls (g :: rest) =
      match g.content with
      | some c =>
        if g.name = "addToScratchpad" ∧ c ≠ [] then
          (c :: (processToolCalls rest).1,
           ToolAck.mk g.id g.name "ok, content added." :: (processToolCalls rest).2)
        else processToolCalls rest
      | none => processToolCalls rest := rfl

theorem processToolCalls_mem (fcs : List FunctionCall) (fc : FunctionCall) (c : List Char)
    (hmem : fc ∈ fcs) (hname : fc.name = "addToScratchpad") (hc : fc.content = some c)
    (hne : c ≠ []) :
    c ∈ (processToolCalls fcs).1 ∧
    ToolAck.mk fc.id fc.name "ok, content added." ∈ (processToolCalls fcs).2 := by
  induction fcs with
  | nil => simp at hmem
  | cons g rest ih =>
    rw [processToolCalls_cons]
    rcases List.mem_cons.mp hmem with hg | hg
    · subst hg
      simp only [hc]
      rw [if_pos ⟨hname, hne⟩]
      exact ⟨List.mem_cons_self _ _, List.mem_cons_self _ _⟩
    · have hin := ih hg
      cases hgc2 : g.content with
      | none => exact hin
      | some e =>
        dsimp only
        by_cases hgd : g.name = "addToScratchpad" ∧ e ≠ []
        · rw [if_pos hgd]
          exact ⟨List.mem_cons_of_mem _ hin.1, List.mem_cons_of_mem _ hin.2⟩
        · rw [if_neg hgd]
          exact hin

theorem processToolCalls_fst_ne_nil (fcs : List FunctionCall) :
    ∀ x ∈ (processToolCalls fcs).1, x ≠ [] := by
  induction fcs with
  | nil =>
    intro x hx
    simp [processToolCalls] at hx
  | cons g rest ih =>
    intro x hx
    rw [processToolCalls_cons] at hx
    cases hgc : g.content with
    | none =>
      rw [hgc] at hx
      exact ih x hx
    | some d =>
      rw [hgc] at hx
      dsimp only at hx
      by_cases hgd : g.name = "addToScratchpad" ∧ d ≠ []
      · rw [if_pos hgd] at hx
        rcases List.mem_cons.mp hx with h1 | h2
        · subst h1
          exact hgd.2
        · exact ih x h2
      · rw [if_neg hgd] at hx
        exact ih x hx
theorem handleMessage_calls (s : SessionState) (m : ServerMessage) :
    (handleMessage s m).2 = processToolCalls m.functionCalls := by
  unfold handleMessage
  rcases m.audioData with _ | p <;> by_cases hi : m.interrupted <;> simp [hi]

/-- C8 amended: for every inbound message, every function call named
`addToScratchpad` whose `content` argument is present and NON-EMPTY
triggers exactly the scratchpad callback with that content and a
tool-result acknowledgment `{id, name, result: "ok, content added."}`
referencing the call id; a call whose content is the empty string
triggers neither (every invocation delivered is non-empty). -/
theorem c8_tool_call (s : SessionState) (m : ServerMessage) (fc : FunctionCall)
    (c : List Char) (hmem : fc ∈ m.functionCalls) (hname : fc.name = "addToScratchpad")
    (hc : fc.content = some c) (hne : c ≠ []) :
    c ∈ (handleMessage s m).2.1 ∧
    ToolAck.mk fc.id fc.name "ok, content added." ∈ (handleMessage s m).2.2 ∧
    (∀ x ∈ (handleMessage s m).2.1, x ≠ []) := by
  rw [handleMessage_calls]
  have h := processToolCalls_mem m.functionCalls fc c hmem hname hc hne
  exact ⟨h.1, h.2, processToolCalls_fst_ne_nil m.functionCalls⟩

/-- Witness for C8 amended: a concrete call with content "42" is
delivered to the callback and acknowledged. -/
theorem c8_tool_call_witness :
    ('4' :: '2' :: []) ∈ (handleMessage
      (SessionState.mk (LiveState.mk [] [] 0 []) true true true true false false 0 0 0
        true false none)
      (ServerMessage.mk [FunctionCall.mk 9 "addToScratchpad" (some ('4' :: '2' :: []))]
        none none false none false)).2.1 ∧
    ToolAck.mk 9 "addToScratchpad" "ok, content added." ∈ (handleMessage
      (SessionState.mk (LiveState.mk [] [] 0 []) true true true true false false 0 0 0
        true false none)
      (ServerMessage.mk [FunctionCall.mk 9 "addToScratchpad" (some ('4' :: '2' :: []))]
        none none false none false)).2.2 ∧
    (∀ x ∈ (handleMessage
      (SessionState.mk (LiveState.mk [] [] 0 []) true true true true false false 0 0 0
        true false none)
      (ServerMessage.mk [FunctionCall.mk 9 "addToScratchpad" (some ('4' :: '2' :: []))]
        none none false none false)).2.1, x ≠ []) :=
  c8_tool_call
    (SessionState.mk (LiveState.mk [] [] 0 []) true true true true false false 0 0 0
      true false none)
    (ServerMessage.mk [FunctionCall.mk 9 "addToScratchpad" (some ('4' :: '2' :: []))]
      none none false none false)
    (FunctionCall.mk 9 "addToScratchpad" (some ('4' :: '2' :: [])))
    ('4' :: '2' :: []) (by decide) rfl rfl (by decide)

/-! Claim theorems about transcript id management. -/

/-- The ids in a session's transcript history, in history order. -/
def historyIds (l : LiveState) : List Nat := l.history.map Transcript.id

/-- The id invariant of a session: ids strictly increase along the
history (hence are pairwise distinct and never reused) and no id
exceeds the current counter (so freshly issued ids are new). -/
def IdInv (l : LiveState) : Prop :=
  (historyIds l).Pairwise (· < ·) ∧ ∀ i ∈ historyIds l, i ≤ l.counter

instance (l : LiveState) : Decidable (IdInv l) := by
  unfold IdInv
  infer_instance

theorem idInv_extend (l : LiveState) (ts : List Transcript) (c2 : Nat)
    (hinv : IdInv l)
    (hts : (ts.map Transcript.id).Pairwise (· < ·))
    (hgt : ∀ i ∈ ts.map Transcript.id, l.counter < i)
    (hle : ∀ i ∈ ts.map Transcript.id, i ≤ c2)
    (hc : l.counter ≤ c2) :
    IdInv (LiveState.mk [] [] c2 (l.history ++ ts)) := by
  constructor
  · show ((l.history ++ ts).map Transcript.id).Pairwise (· < ·)
    rw [List.map_append, List.pairwise_append]
    exact ⟨hinv.1, hts, fun a ha b hb => lt_of_le_of_lt (hinv.2 a ha) (hgt b hb)⟩
  · intro i hi
    show i ≤ c2
    have : i ∈ l.history.map Transcript.id ∨ i ∈ ts.map Transcript.id := by
      have hh : i ∈ (l.history ++ ts).map Transcript.id := hi
      rw [List.map_append, List.mem_append] at hh
      exact hh
    rcases this with h | h
    · exact le_trans (hinv.2 i h) hc
    · exact hle i h

theorem commitTurn_idInv (l : LiveState) (h : IdInv l) : IdInv (commitTurn l) := by
  simp only [commitTurn]
  split_ifs <;>
    exact idInv_extend l _ _ h (by simp [List.pairwise_cons] <;> omega)
      (by simp <;> omega) (by simp <;> omega) (by omega)

theorem commitFinal_idInv (l : LiveState) (h : IdInv l) : IdInv (commitFinal l) := by
  simp only [commitFinal]
  split_ifs <;>
    exact idInv_extend l _ _ h (by simp [List.pairwise_cons] <;> omega)
      (by simp <;> omega) (by simp <;> omega) (by omega)

theorem commitTurn_append_only (l : LiveState) :
    ∃ t, (commitTurn l).history = l.history ++ t :=
  ⟨_, rfl⟩

theorem commitFinal_append_only (l : LiveState) :
    ∃ t, (commitFinal l).history = l.history ++ t :=
  ⟨_, rfl⟩

theorem handleMessage_live (s : SessionState) (m : ServerMessage) :
    (handleMessage s m).1.live =
      (if m.turnComplete then
        commitTurn
          { s.live with
              userBuf := s.live.userBuf ++ m.inputTranscription.getD []
              modelBuf := s.live.modelBuf ++ m.outputTranscription.getD [] }
      else
        { s.live with
            userBuf := s.live.userBuf ++ m.inputTranscription.getD []
            modelBuf := s.live.modelBuf ++ m.outputTranscription.getD [] }) := by
  unfold handleMessage
  rcases m.audioData with _ | p <;> by_cases hi : m.interrupted <;> simp [hi]

theorem idInv_bufs (l : LiveState) (u v : List Char) (h : IdInv l) :
    IdInv { l with userBuf := u, modelBuf := v } :=
  h

/-- C9: within one session, message handling and stop only ever append
to the history (never mutate or remove entries), they preserve the id
invariant (ids strictly increasing along the history, hence never
reused, and bounded by the counter), and starting a new session resets
the counter to 0 and begins an empty history satisfying the invariant. -/
theorem c9_id_monotone :
    (∀ (s : SessionState) (m : ServerMessage),
      ∃ t, (handleMessage s m).1.live.history = s.live.history ++ t) ∧
    (∀ s : SessionState, ∃ t, (stopSession s).live.history = s.live.history ++ t) ∧
    (∀ (s : SessionState) (m : ServerMessage),
      IdInv s.live → IdInv (handleMessage s m).1.live) ∧
    (∀ s : SessionState, IdInv s.live → IdInv (stopSession s).live) ∧
    (∀ s : SessionState, (startSessionInit s).live.history = [] ∧
      (startSessionInit s).live.counter = 0 ∧ IdInv (startSessionInit s).live) := by
  refine ⟨?_, ?_, ?_, ?_, ?_⟩
  · intro s m
    rw [handleMessage_live]
    by_cases ht : m.turnComplete <;> simp only [ht, if_pos, if_neg, Bool.false_eq_true]
    · exact commitTurn_append_only _
    · exact ⟨[], by simp⟩
  · intro s
    exact commitFinal_append_only s.live
  · intro s m h
    rw [handleMessage_live]
    by_cases ht : m.turnComplete <;> simp only [ht, if_pos, if_neg, Bool.false_eq_true]
    · exact commitTurn_idInv _ (idInv_bufs s.live _ _ h)
    · exact idInv_bufs s.live _ _ h
  · intro s h
    exact commitFinal_idInv s.live h
  · intro s
    exact ⟨rfl, rfl, by constructor <;> simp [historyIds, startSessionInit]⟩

/-- Witness for C9 at a concrete state and message: handling a
turn-complete message with buffered text preserves the id invariant. -/
theorem c9_id_monotone_witness :
    IdInv (handleMessage
      (SessionState.mk (LiveState.mk ('h' :: 'i' :: []) [] 2
        [Transcript.mk 1 ('a' :: []) Source.user, Transcript.mk 2 ('b' :: []) Source.model])
        true true true true false false 0 0 0 true false none)
      (ServerMessage.mk [] none none true none false)).1.live :=
  c9_id_monotone.2.2.1
    (SessionState.mk (LiveState.mk ('h' :: 'i' :: []) [] 2
      [Transcript.mk 1 ('a' :: []) Source.user, Transcript.mk 2 ('b' :: []) Source.model])
      true true true true false false 0 0 0 true false none)
    (ServerMessage.mk [] none none true none false)
    (by constructor <;> decide)

/-! The TTS run model from the chat component: `stopTtsPlayback`,
`queueAndPlayAudio` (scheduler effect) and the sequential chunk loop of
`handleReadAloud`.  The loop awaits one synthesis request per chunk; a
run is driven by a schedule that records, per chunk, whether `cancel()`
fires before the chunk's cancellation checkpoint, the outcome of the
synthesis request, and whether `cancel()` fires while the request is in
flight. -/

/-- TTS presentation status. -/
inductive TtsStatus
  | idle
  | fetching
  | playing
deriving DecidableEq, Repr

/-- Mutable state of the TTS subsystem: status, the cancellation flag,
the active source set (modelled by its size), the scheduler clock and
the resume-index sentence marker. -/
structure TtsState where
  status : TtsStatus
  cancelled : Bool
  sources : Nat
  nextStart : ℚ
  activeSentence : Option Nat
deriving DecidableEq, Repr

/-- `stopTtsPlayback` from the source: set the cancellation flag, stop
every active source (errors swallowed) and clear the set, reset the
scheduler clock, set status idle and clear the sentence highlight. -/
def stopTts (st : TtsState) : TtsState :=
  { st with
      status := TtsStatus.idle
      cancelled := true
      sources := 0
      nextStart := 0
      activeSentence := none }

/-- The scheduler effect of `queueAndPlayAudio`: schedule at
`max(nextStart, clockNow)`, advance the clock by the buffer duration and
add the source to the active set. -/
def enqueueTts (st : TtsState) (now dur : ℚ) : TtsState :=
  { st with nextStart := max st.nextStart now + dur, sources := st.sources + 1 }

/-- Outcome of one awaited `getTextToSpeech` request: audio produced
(with the clock reading and duration used at enqueue time), a null
result, or a rejection. -/
inductive SynthOutcome
  | ok (now dur : ℚ)
  | empty
  | threw
deriving DecidableEq, Repr

/-- External events of one chunk iteration of the run loop. -/
structure ChunkStep where
  cancelBefore : Bool
  outcome : SynthOutcome
  cancelDuring : Bool
deriving DecidableEq, Repr

/-- Placeholder step used only as a `getD` default. -/
def defaultChunkStep : ChunkStep := ChunkStep.mk false SynthOutcome.empty false

/-- Accumulated run state: the TTS state, the `hasFailed` and
`firstChunkProcessed` flags, and the indices of the chunks whose
synthesis was requested and whose audio was enqueued. -/
structure TtsRun where
  st : TtsState
  hasFailed : Bool
  firstDone : Bool
  requested : List Nat
  enqueued : List Nat
deriving DecidableEq, Repr

/-- The `for (const chunk of chunks)` loop of `handleReadAloud`.  The
checkpoint `if (isCancelledRef.current) break` opens each iteration; a
cancel event applies `stopTts` exactly as the source `cancel()` path
does.  The result produced by a request that completed after
cancellation passes the `audioData && !isCancelledRef.current` guard
only when the flag is still clear; a null result sets `hasFailed` and
breaks; a rejection is caught, sets `hasFailed` and breaks. -/
def ttsLoop : Nat → TtsRun → List ChunkStep → TtsRun
  | _, acc, [] => acc
  | i, acc, step :: rest =>
    let st0 := if step.cancelBefore then stopTts acc.st else acc.st
    if st0.cancelled then { acc with st := st0 }
    else
      let req := acc.requested ++ [i]
      let st1 := if step.cancelDuring then stopTts st0 else st0
      match step.outcome with
      | SynthOutcome.threw => { acc with st := st1, requested := req, hasFailed := true }
      | SynthOutcome.empty => { acc with st := st1, requested := req, hasFailed := true }
      | SynthOutcome.ok now dur =>
        if st1.cancelled then
          ttsLoop (i + 1) { acc with st := st1, requested := req } rest
        else
          ttsLoop (i + 1)
            (TtsRun.mk
              (enqueueTts
                (if acc.firstDone then st1 else { st1 with status := TtsStatus.playing })
                now dur)
              acc.hasFailed true req (acc.enqueued ++ [i])) rest

/-- Result of one `handleReadAloud` run: final state, whether the
failure alert was shown, and the requested and enqueued chunk indices. -/
structure ReadAloudResult where
  st : TtsState
  alerted : Bool
  requested : List Nat
  enqueued : List Nat
deriving DecidableEq, Repr

/-- The accumulator at loop entry: the flag clearing, fetching status
and scheduler clock reset performed by `handleReadAloud` before its
chunk loop, with `hasFailed` and `firstChunkProcessed` false and no
request or enqueue performed yet. -/
def ttsStart (st : TtsState) : TtsRun :=
  TtsRun.mk { st with cancelled := false, status := TtsStatus.fetching, nextStart := 0 }
    false false [] []

/-- The run branch of `handleReadAloud` (status idle, resolved text
non-empty): clear the cancellation flag and mark fetching; if chunking
produced nothing, return to idle; otherwise reset the scheduler clock,
run the chunk loop, and if the run failed or was cancelled show the
alert only on genuine failure and perform the stop sequence. -/
def runTts (st : TtsState) (steps : List ChunkStep) : ReadAloudResult :=
  let stA := { st with cancelled := false, status := TtsStatus.fetching }
  if steps.isEmpty then
    ReadAloudResult.mk { stA with status := TtsStatus.idle } false [] []
  else
    let r := ttsLoop 0 (ttsStart st) steps
    if r.hasFailed || r.st.cancelled then
      ReadAloudResult.mk (stopTts r.st) r.hasFailed r.requested r.enqueued
    else
      ReadAloudResult.mk r.st false r.requested r.enqueued

/-- The cancel branch of `handleReadAloud`: invoked while status is
fetching or playing it performs `stopTtsPlayback` and returns, with no
failure notice on this path. -/
def cancelTts (st : TtsState) : TtsState :=
  if st.status = TtsStatus.fetching ∨ st.status = TtsStatus.playing then stopTts st
  else st

/-- A step carrying a cancel event (at its checkpoint or in flight). -/
def stepCancels (s : ChunkStep) : Bool := s.cancelBefore || s.cancelDuring

/-- Cancellation has fired no later than chunk `k`'s checkpoint: some
earlier step carried a cancel event, or `cancel()` fires right before
chunk `k`'s checkpoint. -/
def cancelledAtCheck (steps : List ChunkStep) (k : Nat) : Bool :=
  (steps.take k).any stepCancels || (steps.getD k defaultChunkStep).cancelBefore

/-- Cancellation has fired no later than chunk `k`'s enqueue guard:
as above, or `cancel()` fires while chunk `k`'s request is in flight. -/
def cancelledAtEnqueue (steps : List ChunkStep) (k : Nat) : Bool :=
  cancelledAtCheck steps k || (steps.getD k defaultChunkStep).cancelDuring

/-- A synthesis outcome that makes the run fail. -/
def isFailOutcome : SynthOutcome → Bool
  | SynthOutcome.ok _ _ => false
  | SynthOutcome.empty => true
  | SynthOutcome.threw => true

theorem ttsLoop_cancelled (steps : List ChunkStep) (i : Nat) (acc : TtsRun)
    (h : acc.st.cancelled = true) :
    (ttsLoop i acc steps).requested = acc.requested ∧
    (ttsLoop i acc steps).enqueued = acc.enqueued ∧
    (ttsLoop i acc steps).hasFailed = acc.hasFailed ∧
    (ttsLoop i acc steps).st.cancelled = true := by
  cases steps with
  | nil => exact ⟨rfl, rfl, rfl, h⟩
  | cons s rest =>
    by_cases hc : s.cancelBefore = true
    · simp [ttsLoop, hc, stopTts]
    · have hc' : s.cancelBefore = false := by revert hc; cases s.cancelBefore <;> simp
      simp [ttsLoop, hc', h]

theorem cancelledAtCheck_zero (s : ChunkStep) (rest : List ChunkStep) :
    cancelledAtCheck (s :: rest) 0 = s.cancelBefore := by
  simp [cancelledAtCheck]

theorem cancelledAtCheck_succ (s : ChunkStep) (rest : List ChunkStep) (j : Nat) :
    cancelledAtCheck (s :: rest) (j + 1) = (stepCancels s || cancelledAtCheck rest j) := by
  simp [cancelledAtCheck, stepCancels, List.take_succ_cons, Bool.or_assoc]

theorem cancelledAtEnqueue_zero (s : ChunkStep) (rest : List ChunkStep) :
    cancelledAtEnqueue (s :: rest) 0 = (s.cancelBefore || s.cancelDuring) := by
  simp [cancelledAtEnqueue, cancelledAtCheck]

theorem cancelledAtEnqueue_succ (s : ChunkStep) (rest : List ChunkStep) (j : Nat) :
    cancelledAtEnqueue (s :: rest) (j + 1) = (stepCancels s || cancelledAtEnqueue rest j) := by
  simp [cancelledAtEnqueue, cancelledAtCheck_succ, Bool.or_assoc]

theorem ttsLoop_no_request_after_cancel :
    ∀ (steps : List ChunkStep) (i : Nat) (acc : TtsRun) (k : Nat),
      acc.st.cancelled = false → (∀ d ∈ acc.requested, d < i) →
      cancelledAtCheck steps k = true → (i + k) ∉ (ttsLoop i acc steps).requested := by
  intro steps
  induction steps with
  | nil =>
    intro i acc k _ _ hcan
    simp [cancelledAtCheck, defaultChunkStep] at hcan
  | cons s rest ih =>
    intro i acc k hca hlt hcan
    by_cases hcb : s.cancelBefore = true
    · simp only [ttsLoop, hcb, if_true, stopTts]
      intro hmem
      have := hlt _ hmem
      omega
    · have hcb' : s.cancelBefore = false := by revert hcb; cases s.cancelBefore <;> simp
      cases k with
      | zero =>
        rw [cancelledAtCheck_zero] at hcan
        rw [hcb'] at hcan
        exact absurd hcan (by simp)
      | succ j =>
        rw [cancelledAtCheck_succ] at hcan
        simp only [ttsLoop, hcb', Bool.false_eq_true, if_false]
        rw [if_neg (show ¬(acc.st.cancelled = true) from by simp [hca])]
        cases hout : s.outcome with
        | threw =>
          intro hmem
          rcases List.mem_append.mp hmem with h1 | h2
          · have := hlt _ h1
            omega
          · have h2' : i + (j + 1) = i := by simpa using h2
            omega
        | empty =>
          intro hmem
          rcases List.mem_append.mp hmem with h1 | h2
          · have := hlt _ h1
            omega
          · have h2' : i + (j + 1) = i := by simpa using h2
            omega
        | ok now dur =>
          by_cases hcd : s.cancelDuring = true
          · have hst1 : (stopTts acc.st).cancelled = true := rfl
            simp only [hcd, if_true, hst1]
            intro hmem
            have hmem' : i + (j + 1) ∈ (ttsLoop (i + 1)
                (TtsRun.mk (stopTts acc.st) acc.hasFailed acc.firstDone
                  (acc.requested ++ [i]) acc.enqueued) rest).requested := hmem
            rw [(ttsLoop_cancelled rest (i + 1) _ rfl).1] at hmem'
            rcases List.mem_append.mp hmem' with h1 | h2
            · have := hlt _ h1
              omega
            · have h2' : i + (j + 1) = i := by simpa using h2
              omega
          · have hcd' : s.cancelDuring = false := by
              revert hcd; cases s.cancelDuring <;> simp
            simp only [hcd', Bool.false_eq_true, if_false]
            rw [if_neg (show ¬(acc.st.cancelled = true) from by simp [hca])]
            have hcan' : cancelledAtCheck rest j = true := by
              rw [stepCancels, hcb', hcd'] at hcan
              simpa using hcan
            have hlt' : ∀ d ∈ acc.requested ++ [i], d < i + 1 := by
              intro d hd
              rcases List.mem_append.mp hd with h1 | h2
              · have := hlt _ h1
                omega
              · have h2' : d = i := by simpa using h2
                omega
            have hca' : (enqueueTts
                (if acc.firstDone then acc.st else { acc.st with status := TtsStatus.playing })
                now dur).cancelled = false := by
              cases acc.firstDone <;> simp [enqueueTts, hca]
            have hres := ih (i + 1)
              (TtsRun.mk
                (enqueueTts
                  (if acc.firstDone then acc.st else { acc.st with status := TtsStatus.playing })
                  now dur)
                acc.hasFailed true (acc.requested ++ [i]) (acc.enqueued ++ [i])) j hca' hlt' hcan'
            have harith : i + (j + 1) = (i + 1) + j := by omega
            rw [harith]
            exact hres

theorem ttsLoop_no_enqueue_after_cancel :
    ∀ (steps : List ChunkStep) (i : Nat) (acc : TtsRun) (k : Nat),
      acc.st.cancelled = false → (∀ d ∈ acc.enqueued, d < i) →
      cancelledAtEnqueue steps k = true → (i + k) ∉ (ttsLoop i acc steps).enqueued := by
  intro steps
  induction steps with
  | nil =>
    intro i acc k _ _ hcan
    simp [cancelledAtEnqueue, cancelledAtCheck, defaultChunkStep] at hcan
  | cons s rest ih =>
    intro i acc k hca hlt hcan
    by_cases hcb : s.cancelBefore = true
    · simp only [ttsLoop, hcb, if_true, stopTts]
      intro hmem
      have := hlt _ hmem
      omega
    · have hcb' : s.cancelBefore = false := by revert hcb; cases s.cancelBefore <;> simp
      cases k with
      | zero =>
        rw [cancelledAtEnqueue_zero, hcb'] at hcan
        have hcd : s.cancelDuring = true := by simpa using hcan
        simp only [ttsLoop, hcb', Bool.false_eq_true, if_false]
        rw [if_neg (show ¬(acc.st.cancelled = true) from by simp [hca])]
        cases hout : s.outcome with
        | threw =>
          intro hmem
          have := hlt _ hmem
          omega
        | empty =>
          intro hmem
          have := hlt _ hmem
          omega
        | ok now dur =>
          have hst1 : (stopTts acc.st).cancelled = true := rfl
          simp only [hcd, if_true, hst1]
          intro hmem
          have hmem' : i + 0 ∈ (ttsLoop (i + 1)
              (TtsRun.mk (stopTts acc.st) acc.hasFailed acc.firstDone
                (acc.requested ++ [i]) acc.enqueued) rest).enqueued := hmem
          rw [(ttsLoop_cancelled rest (i + 1) _ rfl).2.1] at hmem'
          have := hlt _ hmem'
          omega
      | succ j =>
        rw [cancelledAtEnqueue_succ] at hcan
        simp only [ttsLoop, hcb', Bool.false_eq_true, if_false]
        rw [if_neg (show ¬(acc.st.cancelled = true) from by simp [hca])]
        cases hout : s.outcome with
        | threw =>
          intro hmem
          have := hlt _ hmem
          omega
        | empty =>
          intro hmem
          have := hlt _ hmem
          omega
        | ok now dur =>
          by_cases hcd : s.cancelDuring = true
          · have hst1 : (stopTts acc.st).cancelled = true := rfl
            simp only [hcd, if_true, hst1]
            intro hmem
            have hmem' : i + (j + 1) ∈ (ttsLoop (i + 1)
                (TtsRun.mk (stopTts acc.st) acc.hasFailed acc.firstDone
                  (acc.requested ++ [i]) acc.enqueued) rest).enqueued := hmem
            rw [(ttsLoop_cancelled rest (i + 1) _ rfl).2.1] at hmem'
            have := hlt _ hmem'
            omega
          · have hcd' : s.cancelDuring = false := by
              revert hcd; cases s.cancelDuring <;> simp
            simp only [hcd', Bool.false_eq_true, if_false]
            rw [if_neg (show ¬(acc.st.cancelled = true) from by simp [hca])]
            have hcan' : cancelledAtEnqueue rest j = true := by
              rw [stepCancels, hcb', hcd'] at hcan
              simpa using hcan
            have hlt' : ∀ d ∈ acc.enqueued ++ [i], d < i + 1 := by
              intro d hd
              rcases List.mem_append.mp hd with h1 | h2
              · have := hlt _ h1
                omega
              · have h2' : d = i := by simpa using h2
                omega
            have hca' : (enqueueTts
                (if acc.firstDone then acc.st else { acc.st with status := TtsStatus.playing })
                now dur).cancelled = false := by
              cases acc.firstDone <;> simp [enqueueTts, hca]
            have hres := ih (i + 1)
              (TtsRun.mk
                (enqueueTts
                  (if acc.firstDone then acc.st else { acc.st with status := TtsStatus.playing })
                  now dur)
                acc.hasFailed true (acc.requested ++ [i]) (acc.enqueued ++ [i])) j hca' hlt' hcan'
            have harith : i + (j + 1) = (i + 1) + j := by omega
            rw [harith]
            exact hres

theorem ttsLoop_failed :
    ∀ (steps : List ChunkStep) (i : Nat) (acc : TtsRun),
      (ttsLoop i acc steps).hasFailed = true →
      acc.hasFailed = true ∨
        ∃ j, j < steps.length ∧
          isFailOutcome (steps.getD j defaultChunkStep).outcome = true := by
  intro steps
  induction steps with
  | nil =>
    intro i acc h
    exact Or.inl h
  | cons s rest ih =>
    intro i acc h
    by_cases hcb : s.cancelBefore = true
    · simp only [ttsLoop, hcb, if_true, stopTts] at h
      exact Or.inl h
    · have hcb' : s.cancelBefore = false := by revert hcb; cases s.cancelBefore <;> simp
      by_cases hca : acc.st.cancelled = true
      · simp only [ttsLoop, hcb', Bool.false_eq_true, if_false] at h
        rw [if_pos hca] at h
        exact Or.inl h
      · simp only [ttsLoop, hcb', Bool.false_eq_true, if_false] at h
        rw [if_neg hca] at h
        cases hout : s.outcome with
        | threw =>
          right
          exact ⟨0, by simp, by simp [hout, isFailOutcome]⟩
        | empty =>
          right
          exact ⟨0, by simp, by simp [hout, isFailOutcome]⟩
        | ok now dur =>
          rw [hout] at h
          by_cases hcd : s.cancelDuring = true
          · have hst1 : (stopTts acc.st).cancelled = true := rfl
            simp only [hcd, if_true, hst1] at h
            have h' : (ttsLoop (i + 1)
                (TtsRun.mk (stopTts acc.st) acc.hasFailed acc.firstDone
                  (acc.requested ++ [i]) acc.enqueued) rest).hasFailed = true := h
            rw [(ttsLoop_cancelled rest (i + 1) _ rfl).2.2.1] at h'
            exact Or.inl h'
          · have hcd' : s.cancelDuring = false := by
              revert hcd; cases s.cancelDuring <;> simp
            simp only [hcd', Bool.false_eq_true, if_false] at h
            rw [if_neg hca] at h
            have h' : (ttsLoop (i + 1)
                (TtsRun.mk
                  (enqueueTts
                    (if acc.firstDone then acc.st
                     else { acc.st with status := TtsStatus.playing }) now dur)
                  acc.hasFailed true (acc.requested ++ [i])
                  (acc.enqueued ++ [i])) rest).hasFailed = true := h
            rcases ih (i + 1) _ h' with h1 | ⟨j, hj, hfail⟩
            · exact Or.inl h1
            · right
              refine ⟨j + 1, by simpa using hj, ?_⟩
              rw [List.getD_cons_succ]
              exact hfail

/-- C3: invoking `cancel()` while status is fetching or playing sets the
cancellation flag and performs the stop sequence (active set cleared,
scheduler clock reset, status idle, resume index cleared) without a
failure notice; during a run, cancellation at or before a chunk's
checkpoint means that chunk's synthesis request is never issued;
cancellation at or before a chunk's enqueue guard (including while its
request is in flight) means that chunk's audio is never enqueued; a run
that ends cancelled leaves the active set empty, status idle, clock 0
and the resume index cleared; and the failure notice appears only when
some chunk's request actually failed or returned empty, never on plain
cancellation. -/
theorem c3_tts_cancellation (st : TtsState) (steps : List ChunkStep) (k : Nat) :
    ((st.status = TtsStatus.fetching ∨ st.status = TtsStatus.playing) →
      cancelTts st = stopTts st ∧ (stopTts st).cancelled = true ∧
      (stopTts st).status = TtsStatus.idle ∧ (stopTts st).sources = 0 ∧
      (stopTts st).nextStart = 0 ∧ (stopTts st).activeSentence = none) ∧
    (cancelledAtCheck steps k = true → k ∉ (runTts st steps).requested) ∧
    (cancelledAtEnqueue steps k = true → k ∉ (runTts st steps).enqueued) ∧
    ((runTts st steps).st.cancelled = true →
      (runTts st steps).st.sources = 0 ∧ (runTts st steps).st.status = TtsStatus.idle ∧
      (runTts st steps).st.nextStart = 0 ∧ (runTts st steps).st.activeSentence = none) ∧
    ((runTts st steps).alerted = true →
      ∃ j, j < steps.length ∧
        isFailOutcome ((steps.getD j defaultChunkStep).outcome) = true) := by
  refine ⟨?_, ?_, ?_, ?_, ?_⟩
  · intro hs
    exact ⟨by simp [cancelTts, hs], rfl, rfl, rfl, rfl, rfl⟩
  · intro hcan
    have hmain := ttsLoop_no_request_after_cancel steps 0 (ttsStart st) k rfl
      (by simp [ttsStart]) hcan
    rw [Nat.zero_add] at hmain
    by_cases hemp : steps.isEmpty = true
    · simp [runTts, hemp]
    · simp only [runTts, hemp, Bool.false_eq_true, if_false]
      by_cases hg : ((ttsLoop 0 (ttsStart st) steps).hasFailed ||
          (ttsLoop 0 (ttsStart st) steps).st.cancelled) = true
      · rw [if_pos hg]
        exact hmain
      · rw [if_neg hg]
        exact hmain
  · intro hcan
    have hmain := ttsLoop_no_enqueue_after_cancel steps 0 (ttsStart st) k rfl
      (by simp [ttsStart]) hcan
    rw [Nat.zero_add] at hmain
    by_cases hemp : steps.isEmpty = true
    · simp [runTts, hemp]
    · simp only [runTts, hemp, Bool.false_eq_true, if_false]
      by_cases hg : ((ttsLoop 0 (ttsStart st) steps).hasFailed ||
          (ttsLoop 0 (ttsStart st) steps).st.cancelled) = true
      · rw [if_pos hg]
        exact hmain
      · rw [if_neg hg]
        exact hmain
  · intro hcanc
    by_cases hemp : steps.isEmpty = true
    · exfalso
      have hfalse : (runTts st steps).st.cancelled = false := by
        simp [runTts, hemp]
      rw [hfalse] at hcanc
      exact absurd hcanc (by simp)
    · simp only [runTts, hemp, Bool.false_eq_true, if_false] at hcanc ⊢
      by_cases hg : ((ttsLoop 0 (ttsStart st) steps).hasFailed ||
          (ttsLoop 0 (ttsStart st) steps).st.cancelled) = true
      · rw [if_pos hg] at hcanc ⊢
        exact ⟨rfl, rfl, rfl, rfl⟩
      · exfalso
        rw [if_neg hg] at hcanc
        have hc : (ttsLoop 0 (ttsStart st) steps).st.cancelled = true := hcanc
        simp [hc] at hg
  · intro halert
    by_cases hemp : steps.isEmpty = true
    · exfalso
      have hfalse : (runTts st steps).alerted = false := by
        simp [runTts, hemp]
      rw [hfalse] at halert
      exact absurd halert (by simp)
    · simp only [runTts, hemp, Bool.false_eq_true, if_false] at halert
      by_cases hg : ((ttsLoop 0 (ttsStart st) steps).hasFailed ||
          (ttsLoop 0 (ttsStart st) steps).st.cancelled) = true
      · rw [if_pos hg] at halert
        have hfail : (ttsLoop 0 (ttsStart st) steps).hasFailed = true := halert
        rcases ttsLoop_failed steps 0 (ttsStart st) hfail with h1 | h2
        · exact absurd h1 (by simp [ttsStart])
        · exact h2
      · exfalso
        rw [if_neg hg] at halert
        exact absurd halert (by simp)

/-- Witness for C3: a run of 3 chunks in which `cancel()` fires after
the first chunk's audio is enqueued issues no request for chunks 2 and
3, enqueues nothing further, and ends with an empty active set in the
idle stopped state; a direct `cancel()` in the fetching state performs
the stop sequence; and a run whose only chunk returns empty audio has a
genuinely failing outcome behind its notice. -/
theorem c3_tts_cancellation_witness :
    (cancelTts (TtsState.mk TtsStatus.fetching false 2 5 (some 3)) =
        stopTts (TtsState.mk TtsStatus.fetching false 2 5 (some 3)) ∧
      (stopTts (TtsState.mk TtsStatus.fetching false 2 5 (some 3))).cancelled = true ∧
      (stopTts (TtsState.mk TtsStatus.fetching false 2 5 (some 3))).status = TtsStatus.idle ∧
      (stopTts (TtsState.mk TtsStatus.fetching false 2 5 (some 3))).sources = 0 ∧
      (stopTts (TtsState.mk TtsStatus.fetching false 2 5 (some 3))).nextStart = 0 ∧
      (stopTts (TtsState.mk TtsStatus.fetching false 2 5 (some 3))).activeSentence = none) ∧
    1 ∉ (runTts (TtsState.mk TtsStatus.idle false 0 0 none)
      [ChunkStep.mk false (SynthOutcome.ok 0 1) false,
       ChunkStep.mk true (SynthOutcome.ok 0 1) false,
       ChunkStep.mk false (SynthOutcome.ok 0 1) false]).requested ∧
    2 ∉ (runTts (TtsState.mk TtsStatus.idle false 0 0 none)
      [ChunkStep.mk false (SynthOutcome.ok 0 1) false,
       ChunkStep.mk true (SynthOutcome.ok 0 1) false,
       ChunkStep.mk false (SynthOutcome.ok 0 1) false]).requested ∧
    1 ∉ (runTts (TtsState.mk TtsStatus.idle false 0 0 none)
      [ChunkStep.mk false (SynthOutcome.ok 0 1) false,
       ChunkStep.mk true (SynthOutcome.ok 0 1) false,
       ChunkStep.mk false (SynthOutcome.ok 0 1) false]).enqueued ∧
    ((runTts (TtsState.mk TtsStatus.idle false 0 0 none)
        [ChunkStep.mk false (SynthOutcome.ok 0 1) false,
         ChunkStep.mk true (SynthOutcome.ok 0 1) false,
         ChunkStep.mk false (SynthOutcome.ok 0 1) false]).st.sources = 0 ∧
      (runTts (TtsState.mk TtsStatus.idle false 0 0 none)
        [ChunkStep.mk false (SynthOutcome.ok 0 1) false,
         ChunkStep.mk true (SynthOutcome.ok 0 1) false,
         ChunkStep.mk false (SynthOutcome.ok 0 1) false]).st.status = TtsStatus.idle ∧
      (runTts (TtsState.mk TtsStatus.idle false 0 0 none)
        [ChunkStep.mk false (SynthOutcome.ok 0 1) false,
         ChunkStep.mk true (SynthOutcome.ok 0 1) false,
         ChunkStep.mk false (SynthOutcome.ok 0 1) false]).st.nextStart = 0 ∧
      (runTts (TtsState.mk TtsStatus.idle false 0 0 none)
        [ChunkStep.mk false (SynthOutcome.ok 0 1) false,
         ChunkStep.mk true (SynthOutcome.ok 0 1) false,
         ChunkStep.mk false (SynthOutcome.ok 0 1) false]).st.activeSentence = none) ∧
    (∃ j, j < ([ChunkStep.mk false SynthOutcome.empty false] : List ChunkStep).length ∧
      isFailOutcome (([ChunkStep.mk false SynthOutcome.empty false].getD j
        defaultChunkStep).outcome) = true) :=
  ⟨(c3_tts_cancellation (TtsState.mk TtsStatus.fetching false 2 5 (some 3)) [] 0).1
      (Or.inl rfl),
   (c3_tts_cancellation (TtsState.mk TtsStatus.idle false 0 0 none)
      [ChunkStep.mk false (SynthOutcome.ok 0 1) false,
       ChunkStep.mk true (SynthOutcome.ok 0 1) false,
       ChunkStep.mk false (SynthOutcome.ok 0 1) false] 1).2.1 (by decide),
   (c3_tts_cancellation (TtsState.mk TtsStatus.idle false 0 0 none)
      [ChunkStep.mk false (SynthOutcome.ok 0 1) false,
       ChunkStep.mk true (SynthOutcome.ok 0 1) false,
       ChunkStep.mk false (SynthOutcome.ok 0 1) false] 2).2.1 (by decide),
   (c3_tts_cancellation (TtsState.mk TtsStatus.idle false 0 0 none)
      [ChunkStep.mk false (SynthOutcome.ok 0 1) false,
       ChunkStep.mk true (SynthOutcome.ok 0 1) false,
       ChunkStep.mk false (SynthOutcome.ok 0 1) false] 1).2.2.1 (by decide),
   (c3_tts_cancellation (TtsState.mk TtsStatus.idle false 0 0 none)
      [ChunkStep.mk false (SynthOutcome.ok 0 1) false,
       ChunkStep.mk true (SynthOutcome.ok 0 1) false,
       ChunkStep.mk false (SynthOutcome.ok 0 1) false] 0).2.2.2.1 (by decide),
   (c3_tts_cancellation (TtsState.mk TtsStatus.idle false 0 0 none)
      [ChunkStep.mk false SynthOutcome.empty false] 0).2.2.2.2 (by decide)⟩
